import Mathlib

/-!
Shallow embedding of the Zettlr autocorrect plugin: a CodeMirror keymap
module with three entry points, handleReplacement (Space/Enter),
handleBackspace and handleQuote.

Documents are lists of characters and positions are character offsets.
The host editor's syntax tree is external; the protected-region check
posInProtectedNode is therefore abstracted as a classifier function
`Nat → Bool` carried in the editor state, exactly the capability the
source consults.  JS `Array.prototype.sort` is stable, so the source's
sort by descending key length is modelled as ordering index-tagged rules
by (key length descending, original index ascending).
-/

namespace Autocorrect

/-- Plain double-quote character (code point 34), written via `Char.ofNat`. -/
def dquote : Char := Char.ofNat 34

/-- Plain single-quote character (code point 39). -/
def squote : Char := Char.ofNat 39

/-- Horizontal-ellipsis separator splitting a magic-quote pair string. -/
def ellipsis : Char := Char.ofNat 0x2026

/-- Newline character, delimiting document lines. -/
def newline : Char := Char.ofNat 10

/-- Characters that can be directly followed by a starting magic quote
(source constant `startChars`): space, open paren, open bracket,
open brace (code point 123), hyphen, en-dash, em-dash. -/
def startChars : List Char :=
  [' ', '(', '[', Char.ofNat 123, '-', Char.ofNat 0x2013, Char.ofNat 0x2014]

/-- One replacement rule of the autocorrect table: trigger key and value. -/
structure Rule where
  key : List Char
  value : List Char
deriving DecidableEq

/-- Magic-quote configuration strings: primary (double-quote family) and
secondary (single-quote family), each two glyphs joined by `ellipsis`. -/
structure MagicQuotes where
  primary : List Char
  secondary : List Char
deriving DecidableEq

/-- Autocorrect configuration as read from the host's config field. -/
structure AutocorrectConfig where
  active : Bool
  replacements : List Rule
  magicQuotes : MagicQuotes
deriving DecidableEq

/-- A selection range; it is a cursor (empty) when both endpoints agree. -/
structure SelRange where
  from_ : Nat
  to_ : Nat
deriving DecidableEq

/-- A single document edit replacing the span `[from_, to_)` by `insert`. -/
structure Edit where
  from_ : Nat
  to_ : Nat
  insert : List Char
deriving DecidableEq

/-- The slice of editor state the plugin reads: document text, selection
ranges, configuration, and the protected-node classifier capability. -/
structure EditorState where
  doc : List Char
  selection : List SelRange
  config : AutocorrectConfig
  isProtected : Nat → Bool

/-- Document slicing `sliceDoc(a, b)`, clamped to the document bounds. -/
def sliceDoc (doc : List Char) (a b : Nat) : List Char :=
  (doc.take b).drop a

/-- Full text of the line containing `pos` (no newline characters). -/
def lineTextAt (doc : List Char) (pos : Nat) : List Char :=
  ((doc.take pos).reverse.takeWhile (fun c => c ≠ newline)).reverse ++
    (doc.drop pos).takeWhile (fun c => c ≠ newline)

/-- Split a character list on a separator character, as the JS
`String.split` call used on the magic-quote pair strings. -/
def splitOnSep (sep : Char) : List Char → List (List Char)
  | [] => [[]]
  | c :: cs =>
    if c = sep then [] :: splitOnSep sep cs
    else
      match splitOnSep sep cs with
      | [] => [[c]]
      | g :: gs => (c :: g) :: gs

/-- Tag each rule with its index in the stored table, recording the
original (insertion) order before the defensive copy is sorted. -/
def withIndex (n : Nat) : List Rule → List (Nat × Rule)
  | [] => []
  | x :: xs => (n, x) :: withIndex (n + 1) xs

/-- Strict priority order realised by the stable JS sort: longer keys
first, ties kept in original table order. -/
def ruleBefore (p q : Nat × Rule) : Bool :=
  decide (q.2.key.length < p.2.key.length ∨
    (p.2.key.length = q.2.key.length ∧ p.1 < q.1))

/-- Insert one tagged rule into an already sorted tagged table. -/
def insertSorted (p : Nat × Rule) : List (Nat × Rule) → List (Nat × Rule)
  | [] => [p]
  | q :: qs => if ruleBefore p q then p :: q :: qs else q :: insertSorted p qs

/-- Insertion sort of tagged rules by `ruleBefore`. -/
def sortPairs (l : List (Nat × Rule)) : List (Nat × Rule) :=
  l.foldr insertSorted []

/-- The defensive copy of the table sorted by descending key length
(`replacements.sort((a, b) => b.key.length - a.key.length)`). -/
def sortReplacements (l : List Rule) : List (Nat × Rule) :=
  sortPairs (withIndex 0 l)

/-- Length of the longest key: `replacements[0].key.length` after sorting. -/
def maxKeyLength (l : List Rule) : Nat :=
  match sortReplacements l with
  | [] => 0
  | p :: _ => p.2.key.length

/-- First rule of the sorted table whose key ends the slice
(`slice.endsWith(key)`), together with its original index. -/
def firstMatch (slice : List Char) : List (Nat × Rule) → Option (Nat × Rule)
  | [] => none
  | p :: ps => if p.2.key <:+ slice then some p else firstMatch slice ps

/-- The rule the scan fires for a cursor at `pos`: first suffix match of
the slice `sliceDoc(max(pos - maxKeyLength, 0), pos)` in sorted order. -/
def bestMatch (doc : List Char) (pos : Nat) (l : List Rule) : Option (Nat × Rule) :=
  firstMatch (sliceDoc doc (pos - maxKeyLength l) pos) (sortReplacements l)

/-- Per-cursor body of the replacement scan: skip selections, protected
cursors and `---`/`...` lines; otherwise fire the best match unless the
start of its candidate span is protected (then abandon the cursor). -/
def scanCursor (doc : List Char) (isProt : Nat → Bool) (l : List Rule) (r : SelRange) :
    Option Edit :=
  if r.from_ ≠ r.to_ then none
  else if isProt r.from_ then none
  else if lineTextAt doc r.from_ = ['-', '-', '-'] ∨
      lineTextAt doc r.from_ = ['.', '.', '.'] then none
  else
    match bestMatch doc r.from_ l with
    | none => none
    | some (_, rule) =>
      if isProt (r.from_ - rule.key.length) then none
      else some ⟨r.from_ - rule.key.length, r.from_, rule.value⟩

/-- handleReplacement: the batch of changes dispatched for one Space or
Enter, and the handled flag (always false, so the host still inserts the
key).  Inactive config or empty table short-circuits to a no-op. -/
def handleReplacement (st : EditorState) : List Edit × Bool :=
  if st.config.active = false ∨ st.config.replacements = [] then ([], false)
  else
    (st.selection.filterMap (scanCursor st.doc st.isProtected st.config.replacements), false)

/-- Per-cursor body of handleBackspace: a directional quote right before
the cursor is downgraded to the matching plain quote. -/
def backspaceCursor (doc : List Char) (primaryQ secondaryQ : List (List Char))
    (r : SelRange) : Option Edit :=
  if r.from_ = 0 then none
  else if sliceDoc doc (r.from_ - 1) r.from_ ∈ primaryQ ∧
      sliceDoc doc (r.from_ - 1) r.from_ ≠ [dquote] then
    some ⟨r.from_ - 1, r.from_, [dquote]⟩
  else if sliceDoc doc (r.from_ - 1) r.from_ ∈ secondaryQ ∧
      sliceDoc doc (r.from_ - 1) r.from_ ≠ [squote] then
    some ⟨r.from_ - 1, r.from_, [squote]⟩
  else none

/-- handleBackspace: the dispatched changes and the handled flag, true
exactly when at least one cursor produced a downgrade. -/
def handleBackspace (st : EditorState) : List Edit × Bool :=
  if st.config.active = false then ([], false)
  else
    let primaryQ := splitOnSep ellipsis st.config.magicQuotes.primary
    let secondaryQ := splitOnSep ellipsis st.config.magicQuotes.secondary
    let changes := st.selection.filterMap (backspaceCursor st.doc primaryQ secondaryQ)
    (changes, !changes.isEmpty)

/-- Per-range body of handleQuote's changeByRange: an empty cursor gets
the start glyph when the preceding character (JS includes semantics, so
also at document start where the slice is empty) is in `startChars`,
otherwise the end glyph; a selection is surrounded by the pair. -/
def quoteCursor (doc : List Char) (q0 q1 : List Char) (r : SelRange) : SelRange × Edit :=
  if r.from_ = r.to_ then
    let charBefore := sliceDoc doc (r.from_ - 1) r.from_
    let ins := if charBefore <:+: startChars then q0 else q1
    (⟨r.to_ + ins.length, r.to_ + ins.length⟩, ⟨r.from_, r.to_, ins⟩)
  else
    let text := sliceDoc doc r.from_ r.to_
    (⟨r.from_ + q0.length, r.to_ + q1.length⟩, ⟨r.from_, r.to_, q0 ++ text ++ q1⟩)

/-- handleQuote: new range and change per selection range, plus the
handled flag (true whenever the config is active, false otherwise).
Out-of-range pair segments are read as `[]`, mirroring the unchecked
indexing `quotes[0]`/`quotes[1]`. -/
def handleQuote (quote : Char) (st : EditorState) : List (SelRange × Edit) × Bool :=
  if st.config.active = false then ([], false)
  else
    let primary := splitOnSep ellipsis st.config.magicQuotes.primary
    let secondary := splitOnSep ellipsis st.config.magicQuotes.secondary
    let quotes := if quote = dquote then primary else secondary
    (st.selection.map (quoteCursor st.doc (quotes.getD 0 []) (quotes.getD 1 [])), true)

/-- Apply one edit to the document (host transaction semantics for a
single change). -/
def applyEdit (doc : List Char) (e : Edit) : List Char :=
  doc.take e.from_ ++ e.insert ++ doc.drop e.to_

/-- Two edits have non-overlapping spans. -/
def editDisjoint (a b : Edit) : Prop :=
  a.to_ ≤ b.from_ ∨ b.to_ ≤ a.from_

/-- Classifier fixture: no position is protected. -/
def noProt : Nat → Bool := fun _ => false

/-- Classifier fixture: every position is protected. -/
def allProt : Nat → Bool := fun _ => true

/-- Magic-quote fixture: curly double and single quote pairs. -/
def curlyQuotes : MagicQuotes := ⟨['“', ellipsis, '”'], ['‘', ellipsis, '’']⟩

/-- Config fixture: active, no replacement rules, curly quotes. -/
def cfgQuotes : AutocorrectConfig := ⟨true, [], curlyQuotes⟩

/-- Config fixture: inactive. -/
def cfgInactive : AutocorrectConfig := ⟨false, [], curlyQuotes⟩

/-- Config fixture whose primary pair has a two-character start glyph
and a one-character end glyph. -/
def cfgUneven : AutocorrectConfig := ⟨true, [], ⟨['a', 'b', ellipsis, 'c'], ['‘', ellipsis, '’']⟩⟩

/-! ## Helper lemmas -/

theorem sliceDoc_single (doc : List Char) (c : Nat) (ch : Char)
    (hc : 1 ≤ c) (hch : doc[c - 1]? = some ch) :
    sliceDoc doc (c - 1) c = [ch] := by
  obtain ⟨hlt, hval⟩ := List.getElem?_eq_some.mp hch
  unfold sliceDoc
  rw [List.drop_take]
  have h1 : c - (c - 1) = 1 := by omega
  rw [h1, List.drop_eq_getElem_cons hlt]
  simp [hval]

theorem singleton_isInfix_iff (a : Char) (l : List Char) : [a] <:+: l ↔ a ∈ l := by
  constructor
  · intro h
    exact h.subset (List.mem_singleton_self a)
  · intro h
    obtain ⟨s, t, hst⟩ := List.append_of_mem h
    exact ⟨s, t, by simp [hst]⟩

theorem sliceDoc_length (doc : List Char) (f t : Nat) (hft : f ≤ t) (ht : t ≤ doc.length) :
    (sliceDoc doc f t).length = t - f := by
  unfold sliceDoc
  simp
  omega

theorem applyEdit_shifted_slice (doc q0 q1 : List Char) (f t : Nat)
    (hft : f ≤ t) (ht : t ≤ doc.length) :
    sliceDoc (applyEdit doc ⟨f, t, q0 ++ sliceDoc doc f t ++ q1⟩)
      (f + q0.length) (t + q0.length) = sliceDoc doc f t := by
  have hlen : (sliceDoc doc f t).length = t - f := sliceDoc_length doc f t hft ht
  have hAB : applyEdit doc ⟨f, t, q0 ++ sliceDoc doc f t ++ q1⟩ =
      ((doc.take f ++ q0) ++ sliceDoc doc f t) ++ (q1 ++ doc.drop t) := by
    unfold applyEdit
    simp [List.append_assoc]
  rw [hAB]
  unfold sliceDoc
  rw [List.take_left' (by simp; omega), List.drop_left' (by simp; omega)]

/-! ## Sorting and matching lemmas -/

theorem ruleBefore_trans {p q s : Nat × Rule} (h1 : ruleBefore p q = true)
    (h2 : ruleBefore q s = true) : ruleBefore p s = true := by
  simp only [ruleBefore, decide_eq_true_eq] at *
  omega

theorem ruleBefore_total {p q : Nat × Rule} (h : p.1 ≠ q.1) :
    ruleBefore p q = true ∨ ruleBefore q p = true := by
  simp only [ruleBefore, decide_eq_true_eq]
  omega

theorem insertSorted_perm (p : Nat × Rule) (l : List (Nat × Rule)) :
    List.Perm (insertSorted p l) (p :: l) := by
  induction l with
  | nil => exact List.Perm.refl _
  | cons q qs ih =>
    unfold insertSorted
    by_cases h : ruleBefore p q = true
    · rw [if_pos h]
    · rw [if_neg h]
      exact List.Perm.trans (ih.cons q) (List.Perm.swap p q qs)

theorem sortPairs_perm (l : List (Nat × Rule)) : List.Perm (sortPairs l) l := by
  induction l with
  | nil => exact List.Perm.refl _
  | cons p ps ih =>
    exact List.Perm.trans (insertSorted_perm p (sortPairs ps)) (ih.cons p)

theorem pairwise_insertSorted (p : Nat × Rule) (l : List (Nat × Rule))
    (hne : ∀ q ∈ l, p.1 ≠ q.1)
    (hl : l.Pairwise (fun a b => ruleBefore a b = true)) :
    (insertSorted p l).Pairwise (fun a b => ruleBefore a b = true) := by
  induction l with
  | nil => simp [insertSorted]
  | cons q qs ih =>
    rw [List.pairwise_cons] at hl
    obtain ⟨hq, hqs⟩ := hl
    unfold insertSorted
    by_cases h : ruleBefore p q = true
    · rw [if_pos h]
      refine List.Pairwise.cons ?_ (List.Pairwise.cons hq hqs)
      intro x hx
      rcases List.mem_cons.mp hx with rfl | hx2
      · exact h
      · exact ruleBefore_trans h (hq x hx2)
    · rw [if_neg h]
      have hqp : ruleBefore q p = true := by
        rcases ruleBefore_total (hne q (List.mem_cons_self q qs)) with h1 | h1
        · exact absurd h1 h
        · exact h1
      refine List.Pairwise.cons ?_ (ih (fun x hx => hne x (List.mem_cons_of_mem q hx)) hqs)
      intro x hx
      rcases List.mem_cons.mp ((insertSorted_perm p qs).mem_iff.mp hx) with rfl | hx2
      · exact hqp
      · exact hq x hx2

theorem withIndex_ge (n : Nat) (l : List Rule) : ∀ p ∈ withIndex n l, n ≤ p.1 := by
  induction l generalizing n with
  | nil => intro p hp; cases hp
  | cons x xs ih =>
    intro p hp
    simp only [withIndex] at hp
    rcases List.mem_cons.mp hp with rfl | hp2
    · exact Nat.le_refl n
    · exact Nat.le_of_succ_le (ih (n + 1) p hp2)

theorem withIndex_pairwise_ne (n : Nat) (l : List Rule) :
    (withIndex n l).Pairwise (fun a b => a.1 ≠ b.1) := by
  induction l generalizing n with
  | nil => exact List.Pairwise.nil
  | cons x xs ih =>
    simp only [withIndex]
    refine List.Pairwise.cons ?_ (ih (n + 1))
    intro p hp
    have := withIndex_ge (n + 1) xs p hp
    simp only
    omega

theorem sortPairs_pairwise (l : List (Nat × Rule))
    (hl : l.Pairwise (fun a b => a.1 ≠ b.1)) :
    (sortPairs l).Pairwise (fun a b => ruleBefore a b = true) := by
  induction l with
  | nil => exact List.Pairwise.nil
  | cons p ps ih =>
    rw [List.pairwise_cons] at hl
    obtain ⟨hp, hps⟩ := hl
    have hrw : sortPairs (p :: ps) = insertSorted p (sortPairs ps) := rfl
    rw [hrw]
    refine pairwise_insertSorted p (sortPairs ps) ?_ (ih hps)
    intro q hq
    exact hp q ((sortPairs_perm ps).mem_iff.mp hq)

theorem sortReplacements_perm (l : List Rule) :
    List.Perm (sortReplacements l) (withIndex 0 l) :=
  sortPairs_perm _

theorem sortReplacements_pairwise (l : List Rule) :
    (sortReplacements l).Pairwise (fun a b => ruleBefore a b = true) :=
  sortPairs_pairwise _ (withIndex_pairwise_ne 0 l)

theorem snd_mem_of_mem_withIndex {n : Nat} {l : List Rule} {p : Nat × Rule}
    (h : p ∈ withIndex n l) : p.2 ∈ l := by
  induction l generalizing n with
  | nil => cases h
  | cons x xs ih =>
    simp only [withIndex] at h
    rcases List.mem_cons.mp h with rfl | h2
    · exact List.mem_cons_self x xs
    · exact List.mem_cons_of_mem x (ih h2)

theorem mem_withIndex_of_mem {l : List Rule} {x : Rule} (h : x ∈ l) (n : Nat) :
    ∃ i, (i, x) ∈ withIndex n l := by
  induction l generalizing n with
  | nil => cases h
  | cons y ys ih =>
    simp only [withIndex]
    rcases List.mem_cons.mp h with rfl | h2
    · exact ⟨n, List.mem_cons_self _ _⟩
    · obtain ⟨i, hi⟩ := ih h2 (n + 1)
      exact ⟨i, List.mem_cons_of_mem _ hi⟩

theorem key_length_le_maxKeyLength {l : List Rule} {x : Rule} (h : x ∈ l) :
    x.key.length ≤ maxKeyLength l := by
  obtain ⟨i, hi⟩ := mem_withIndex_of_mem h 0
  have hmem : (i, x) ∈ sortReplacements l := (sortReplacements_perm l).mem_iff.mpr hi
  unfold maxKeyLength
  cases hsr : sortReplacements l with
  | nil => rw [hsr] at hmem; cases hmem
  | cons p ps =>
    rw [hsr] at hmem
    simp only
    rcases List.mem_cons.mp hmem with heq | hmem2
    · rw [← heq]
    · have hpw := sortReplacements_pairwise l
      rw [hsr, List.pairwise_cons] at hpw
      have := hpw.1 _ hmem2
      simp only [ruleBefore, decide_eq_true_eq] at this
      omega

theorem firstMatch_some {slice : List Char} {l : List (Nat × Rule)} {p : Nat × Rule}
    (h : firstMatch slice l = some p) :
    p ∈ l ∧ p.2.key <:+ slice := by
  induction l with
  | nil => cases h
  | cons q qs ih =>
    unfold firstMatch at h
    by_cases hq : q.2.key <:+ slice
    · rw [if_pos hq] at h
      injection h with h
      subst h
      exact ⟨List.mem_cons_self _ _, hq⟩
    · rw [if_neg hq] at h
      obtain ⟨h1, h2⟩ := ih h
      exact ⟨List.mem_cons_of_mem _ h1, h2⟩

theorem firstMatch_argmax {slice : List Char} {l : List (Nat × Rule)} {p : Nat × Rule}
    (hpw : l.Pairwise (fun a b => ruleBefore a b = true))
    (h : firstMatch slice l = some p) :
    ∀ q ∈ l, q.2.key <:+ slice → q = p ∨ ruleBefore p q = true := by
  induction l with
  | nil => cases h
  | cons x xs ih =>
    rw [List.pairwise_cons] at hpw
    obtain ⟨hx, hxs⟩ := hpw
    unfold firstMatch at h
    by_cases hm : x.2.key <:+ slice
    · rw [if_pos hm] at h
      injection h with h
      subst h
      intro q hq hqm
      rcases List.mem_cons.mp hq with rfl | hq2
      · exact Or.inl rfl
      · exact Or.inr (hx q hq2)
    · rw [if_neg hm] at h
      intro q hq hqm
      rcases List.mem_cons.mp hq with rfl | hq2
      · exact absurd hqm hm
      · exact ih hxs h q hq2 hqm

theorem suffix_slice_iff (doc k : List Char) (c maxLen : Nat)
    (hc : c ≤ doc.length) (hk : k.length ≤ maxLen) :
    (k <:+ sliceDoc doc (c - maxLen) c) ↔ k <:+ doc.take c := by
  unfold sliceDoc
  constructor
  · intro h
    exact h.trans (List.drop_suffix _ _)
  · rintro ⟨s, hs⟩
    have hlen : (doc.take c).length = c := by
      rw [List.length_take, Nat.min_eq_left hc]
    have hslen : s.length + k.length = c := by
      have h2 := congrArg List.length hs
      rw [List.length_append, hlen] at h2
      exact h2
    refine ⟨s.drop (c - maxLen), ?_⟩
    rw [← hs, List.drop_append_of_le_length (by omega)]

/-! ## Replacement-scanner claims -/

/-- Claim C1 (confirmed): when the replacement scan emits an edit for a
cursor, the fired rule is one whose key is a suffix of the document text
ending at the cursor, every other matching rule has a strictly shorter
key or (at equal length) a later position in the original table, the
edit replaces exactly the key's span with the rule's value, and being an
`Option` the per-cursor scan emits exactly this one edit. -/
theorem claim_C1_longest_match (doc : List Char) (isProt : Nat → Bool) (l : List Rule)
    (r : SelRange) (e : Edit) (hc : r.from_ ≤ doc.length)
    (h : scanCursor doc isProt l r = some e) :
    ∃ p ∈ withIndex 0 l,
      e = ⟨r.from_ - p.2.key.length, r.from_, p.2.value⟩ ∧
      p.2.key <:+ doc.take r.from_ ∧
      ∀ q ∈ withIndex 0 l, q.2.key <:+ doc.take r.from_ →
        q.2.key.length < p.2.key.length ∨
          (q.2.key.length = p.2.key.length ∧ p.1 ≤ q.1) := by
  unfold scanCursor at h
  split at h
  · exact absurd h (by simp)
  split at h
  · exact absurd h (by simp)
  split at h
  · exact absurd h (by simp)
  cases hbm : bestMatch doc r.from_ l with
  | none => rw [hbm] at h; exact absurd h (by simp)
  | some p =>
    rw [hbm] at h
    obtain ⟨i, rule⟩ := p
    simp only at h
    split at h
    · exact absurd h (by simp)
    · injection h with he
      unfold bestMatch at hbm
      obtain ⟨hmem_s, hmatch_s⟩ := firstMatch_some hbm
      have hargmax := firstMatch_argmax (sortReplacements_pairwise l) hbm
      have hmem_w : (i, rule) ∈ withIndex 0 l := (sortReplacements_perm l).mem_iff.mp hmem_s
      have hle : rule.key.length ≤ maxKeyLength l :=
        key_length_le_maxKeyLength (snd_mem_of_mem_withIndex hmem_w)
      have hmatch_p : rule.key <:+ doc.take r.from_ :=
        (suffix_slice_iff doc rule.key r.from_ (maxKeyLength l) hc hle).mp hmatch_s
      refine ⟨(i, rule), hmem_w, he.symm, hmatch_p, ?_⟩
      intro q hq hqm
      have hqle : q.2.key.length ≤ maxKeyLength l :=
        key_length_le_maxKeyLength (snd_mem_of_mem_withIndex hq)
      have hqslice : q.2.key <:+ sliceDoc doc (r.from_ - maxKeyLength l) r.from_ :=
        (suffix_slice_iff doc q.2.key r.from_ (maxKeyLength l) hc hqle).mpr hqm
      have hqs : q ∈ sortReplacements l := (sortReplacements_perm l).mem_iff.mpr hq
      rcases hargmax q hqs hqslice with rfl | hrb
      · exact Or.inr ⟨rfl, Nat.le_refl _⟩
      · simp only [ruleBefore, decide_eq_true_eq] at hrb
        rcases hrb with h1 | ⟨h1, h2⟩
        · exact Or.inl h1
        · exact Or.inr ⟨h1.symm, Nat.le_of_lt h2⟩

/-- Claim C1 (witness): the theorem at a concrete two-rule table where
the longer key "->" beats its proper suffix ">". -/
theorem claim_C1_witness :
    scanCursor "a->".toList noProt [⟨['-', '>'], ['→']⟩, ⟨['>'], ['≥']⟩] ⟨3, 3⟩ =
      some ⟨1, 3, ['→']⟩ ∧
    ∃ p ∈ withIndex 0 [⟨['-', '>'], ['→']⟩, ⟨['>'], ['≥']⟩],
      (⟨1, 3, ['→']⟩ : Edit) = ⟨3 - p.2.key.length, 3, p.2.value⟩ ∧
      p.2.key <:+ "a->".toList.take 3 ∧
      ∀ q ∈ withIndex 0 [⟨['-', '>'], ['→']⟩, ⟨['>'], ['≥']⟩],
        q.2.key <:+ "a->".toList.take 3 →
          q.2.key.length < p.2.key.length ∨
            (q.2.key.length = p.2.key.length ∧ p.1 ≤ q.1) :=
  ⟨by decide,
    claim_C1_longest_match "a->".toList noProt [⟨['-', '>'], ['→']⟩, ⟨['>'], ['≥']⟩]
      ⟨3, 3⟩ ⟨1, 3, ['→']⟩ (by decide) (by decide)⟩

/-- Claim C2 (confirmed): if the best (longest, earliest) matching rule
for a cursor has a candidate span whose start position is protected, the
scan emits nothing for that cursor — no fallthrough to a shorter key —
even though the cursor position itself is unprotected. -/
theorem claim_C2_protected_start (doc : List Char) (isProt : Nat → Bool) (l : List Rule)
    (r : SelRange) (i : Nat) (rule : Rule)
    (hcur : isProt r.from_ = false)
    (hbm : bestMatch doc r.from_ l = some (i, rule))
    (hprot : isProt (r.from_ - rule.key.length) = true) :
    scanCursor doc isProt l r = none := by
  unfold scanCursor
  rw [hbm]
  simp [hcur, hprot]

/-- Claim C2 (witness): the theorem at a concrete state where position 2
is protected, the cursor at 4 is not, "->" is the best match with span
[2,4), and the shorter suffix ">" matching at [3,4) does not fire. -/
theorem claim_C2_witness :
    scanCursor "ab->".toList (fun n => n == 2) [⟨['-', '>'], ['→']⟩, ⟨['>'], ['≥']⟩]
      ⟨4, 4⟩ = none :=
  claim_C2_protected_start "ab->".toList (fun n => n == 2)
    [⟨['-', '>'], ['→']⟩, ⟨['>'], ['≥']⟩] ⟨4, 4⟩ 0 ⟨['-', '>'], ['→']⟩
    (by decide) (by decide) (by decide)

/-- Decidability of span disjointness, for concrete evaluation. -/
instance (a b : Edit) : Decidable (editDisjoint a b) :=
  inferInstanceAs (Decidable (a.to_ ≤ b.from_ ∨ b.to_ ≤ a.from_))

/-- Fixture: two cursors two characters apart with a two-character key,
so the two fired edits overlap. -/
def stOverlap : EditorState :=
  ⟨['a', 'a', 'a', 'a'], [⟨2, 2⟩, ⟨3, 3⟩],
    ⟨true, [⟨['a', 'a'], ['x']⟩], curlyQuotes⟩, noProt⟩

/-- Fixture: the same document and table with cursors a full key length
apart, so the fired edits are disjoint. -/
def stSep : EditorState :=
  ⟨['a', 'a', 'a', 'a'], [⟨2, 2⟩, ⟨4, 4⟩],
    ⟨true, [⟨['a', 'a'], ['x']⟩], curlyQuotes⟩, noProt⟩

theorem scanCursor_some_span {doc : List Char} {isProt : Nat → Bool} {l : List Rule}
    {r : SelRange} {e : Edit} (h : scanCursor doc isProt l r = some e) :
    e.to_ = r.from_ ∧ r.from_ - maxKeyLength l ≤ e.from_ ∧ e.from_ ≤ r.from_ := by
  unfold scanCursor at h
  split at h
  · exact absurd h (by simp)
  split at h
  · exact absurd h (by simp)
  split at h
  · exact absurd h (by simp)
  cases hbm : bestMatch doc r.from_ l with
  | none => rw [hbm] at h; exact absurd h (by simp)
  | some p =>
    rw [hbm] at h
    obtain ⟨i, rule⟩ := p
    simp only at h
    split at h
    · exact absurd h (by simp)
    · injection h with he
      unfold bestMatch at hbm
      obtain ⟨hmem_s, _⟩ := firstMatch_some hbm
      have hmem_w : (i, rule) ∈ withIndex 0 l := (sortReplacements_perm l).mem_iff.mp hmem_s
      have hle : rule.key.length ≤ maxKeyLength l :=
        key_length_le_maxKeyLength (snd_mem_of_mem_withIndex hmem_w)
      rw [← he]
      refine ⟨rfl, ?_, ?_⟩ <;> simp only <;> omega

/-- Claim C5 (counterexample): with cursors at positions 2 and 3 over
document "aaaa" and the single rule "aa" -> "x", one keystroke produces
the two edits [0,2) and [1,3), whose spans overlap. -/
theorem claim_C5_counterexample :
    (handleReplacement stOverlap).1 = [⟨0, 2, ['x']⟩, ⟨1, 3, ['x']⟩] ∧
    ¬ editDisjoint ⟨0, 2, ['x']⟩ ⟨1, 3, ['x']⟩ := by decide

/-- Claim C5 (amended): each cursor contributes at most one edit, but
edits of distinct cursors can overlap when the cursors are closer than
the matched key lengths; whenever successive cursors are at least the
maximum key length apart, the emitted batch is pairwise
non-overlapping. -/
theorem claim_C5_amended (st : EditorState)
    (hsep : st.selection.Pairwise
      (fun r1 r2 => r1.from_ + maxKeyLength st.config.replacements ≤ r2.from_)) :
    (handleReplacement st).1.length ≤ st.selection.length ∧
    (handleReplacement st).1.Pairwise editDisjoint := by
  unfold handleReplacement
  split
  · simp
  · refine ⟨List.length_filterMap_le _ _, ?_⟩
    rw [List.pairwise_filterMap]
    refine hsep.imp ?_
    intro r1 r2 hle e1 he1 e2 he2
    obtain ⟨ht1, hf1, hg1⟩ := scanCursor_some_span (Option.mem_def.mp he1)
    obtain ⟨ht2, hf2, hg2⟩ := scanCursor_some_span (Option.mem_def.mp he2)
    unfold editDisjoint
    left
    omega

/-- Claim C5 (witness): the amended theorem at the separated fixture. -/
theorem claim_C5_witness :
    (handleReplacement stSep).1.length ≤ stSep.selection.length ∧
    (handleReplacement stSep).1.Pairwise editDisjoint :=
  claim_C5_amended stSep (by decide)

/-! ## Quote-handler claims -/

/-- Claim C3 (counterexample): with primary pair start glyph "ab" and
end glyph "c", wrapping the selection [0,1) of document "a" produces the
new selection [2,2), not the range [2,3) = both endpoints shifted by the
start glyph's length that would keep covering the original text. -/
theorem claim_C3_counterexample :
    (handleQuote dquote ⟨['a'], [⟨0, 1⟩], cfgUneven, noProt⟩).1 =
      [(⟨2, 2⟩, ⟨0, 1, ['a', 'b', 'a', 'c']⟩)] ∧
    ((⟨2, 2⟩ : SelRange) ≠ ⟨0 + 2, 1 + 2⟩) := by decide

/-- Claim C3 (amended): for every non-empty selection range the quote
handler inserts the start glyph immediately before and the end glyph
immediately after the selected text, leaves the originally selected text
unchanged (it reappears at offsets shifted by the start glyph's length),
and produces the selection (from + start.length, to + end.length); this
covers exactly the original text whenever the two glyphs have equal
length. -/
theorem claim_C3_amended (st : EditorState) (qc : Char) (q0 q1 : List Char) (r : SelRange)
    (hact : st.config.active = true)
    (hq : splitOnSep ellipsis
      (if qc = dquote then st.config.magicQuotes.primary else st.config.magicQuotes.secondary) =
      [q0, q1])
    (hne : r.from_ < r.to_) (ht : r.to_ ≤ st.doc.length) :
    (handleQuote qc st).1 = st.selection.map (quoteCursor st.doc q0 q1) ∧
    quoteCursor st.doc q0 q1 r =
      (⟨r.from_ + q0.length, r.to_ + q1.length⟩,
        ⟨r.from_, r.to_, q0 ++ sliceDoc st.doc r.from_ r.to_ ++ q1⟩) ∧
    sliceDoc (applyEdit st.doc ⟨r.from_, r.to_, q0 ++ sliceDoc st.doc r.from_ r.to_ ++ q1⟩)
      (r.from_ + q0.length) (r.to_ + q0.length) = sliceDoc st.doc r.from_ r.to_ := by
  refine ⟨?_, ?_, applyEdit_shifted_slice st.doc q0 q1 r.from_ r.to_ (le_of_lt hne) ht⟩
  · unfold handleQuote
    by_cases hqc : qc = dquote <;> simp [hact, hqc] at hq ⊢ <;> rw [hq] <;> exact fun a _ => rfl
  · unfold quoteCursor
    rw [if_neg (by omega)]

/-- Claim C3 (witness): the amended theorem applied to a concrete
uneven-glyph configuration. -/
theorem claim_C3_witness :
    (handleQuote dquote ⟨['a'], [⟨0, 1⟩], cfgUneven, noProt⟩).1 =
      [(⟨0, 1⟩ : SelRange)].map (quoteCursor ['a'] ['a', 'b'] ['c']) ∧
    quoteCursor ['a'] ['a', 'b'] ['c'] ⟨0, 1⟩ =
      (⟨0 + List.length ['a', 'b'], 1 + List.length ['c']⟩,
        ⟨0, 1, ['a', 'b'] ++ sliceDoc ['a'] 0 1 ++ ['c']⟩) ∧
    sliceDoc (applyEdit ['a'] ⟨0, 1, ['a', 'b'] ++ sliceDoc ['a'] 0 1 ++ ['c']⟩)
      (0 + List.length ['a', 'b']) (1 + List.length ['a', 'b']) = sliceDoc ['a'] 0 1 :=
  claim_C3_amended ⟨['a'], [⟨0, 1⟩], cfgUneven, noProt⟩ dquote ['a', 'b'] ['c'] ⟨0, 1⟩
    (by decide) (by decide) (by decide) (by decide)

/-- Claim C4 (counterexample): with an inactive configuration the quote
handler reports not handled (false), refuting "always returns true,
including when the autocorrect configuration is inactive". -/
theorem claim_C4_counterexample :
    cfgInactive.active = false ∧
    (handleQuote dquote ⟨['a'], [⟨1, 1⟩], cfgInactive, noProt⟩).2 = false := by decide

/-- Claim C4 (amended): the handler returned by the quote command
reports handled exactly when the autocorrect configuration is active;
with an inactive configuration it reports not handled. -/
theorem claim_C4_amended (qc : Char) (st : EditorState) :
    (handleQuote qc st).2 = st.config.active := by
  cases hb : st.config.active <;> simp [handleQuote, hb]

/-- Claim C6 (counterexample): with every position protected, the quote
handler still emits an insertion for a cursor inside the protected
region, and the backspace handler still emits a downgrade edit there. -/
theorem claim_C6_counterexample :
    ((⟨['a'], [⟨1, 1⟩], cfgQuotes, allProt⟩ : EditorState).isProtected 1 = true ∧
      (handleQuote dquote ⟨['a'], [⟨1, 1⟩], cfgQuotes, allProt⟩).1 =
        [(⟨2, 2⟩, ⟨1, 1, ['”']⟩)]) ∧
    ((⟨['“'], [⟨1, 1⟩], cfgQuotes, allProt⟩ : EditorState).isProtected 1 = true ∧
      handleBackspace ⟨['“'], [⟨1, 1⟩], cfgQuotes, allProt⟩ = ([⟨0, 1, [dquote]⟩], true)) := by
  decide

/-- Claim C6 (amended): only the replacement scanner consults the
protected-region classifier (a protected cursor position makes the scan
emit nothing); the quote and backspace handlers never consult it, so
their output is unchanged under any classifier swap. -/
theorem claim_C6_amended (qc : Char) (doc : List Char) (sel : List SelRange)
    (cfg : AutocorrectConfig) (p q : Nat → Bool) (r : SelRange) :
    handleQuote qc ⟨doc, sel, cfg, p⟩ = handleQuote qc ⟨doc, sel, cfg, q⟩ ∧
    handleBackspace ⟨doc, sel, cfg, p⟩ = handleBackspace ⟨doc, sel, cfg, q⟩ ∧
    (r.from_ = r.to_ → p r.from_ = true → scanCursor doc p cfg.replacements r = none) := by
  refine ⟨rfl, rfl, fun he hp => ?_⟩
  unfold scanCursor
  rw [he] at hp
  simp [he, hp]

/-- Claim C6 (witness): the amended theorem at a concrete state, with
its classifier-swap equation and a protected cursor skipped by the
scanner. -/
theorem claim_C6_witness :
    handleQuote dquote ⟨['a'], [⟨1, 1⟩], cfgQuotes, allProt⟩ =
      handleQuote dquote ⟨['a'], [⟨1, 1⟩], cfgQuotes, noProt⟩ ∧
    scanCursor ['a'] allProt cfgQuotes.replacements ⟨1, 1⟩ = none :=
  ⟨(claim_C6_amended dquote ['a'] [⟨1, 1⟩] cfgQuotes allProt noProt ⟨1, 1⟩).1,
    (claim_C6_amended dquote ['a'] [⟨1, 1⟩] cfgQuotes allProt noProt ⟨1, 1⟩).2.2 rfl rfl⟩

/-- Claim C7 (confirmed): for an empty cursor, the quote key inserts the
pair's start glyph exactly when the cursor is at document start or the
single preceding character is a space, open paren, open bracket, open
brace, hyphen, en-dash or em-dash; any other preceding character yields
the end glyph; the new cursor sits immediately after the insertion. -/
theorem claim_C7_quote_context (st : EditorState) (qc : Char) (q0 q1 : List Char) (r : SelRange)
    (hact : st.config.active = true)
    (hq : splitOnSep ellipsis
      (if qc = dquote then st.config.magicQuotes.primary else st.config.magicQuotes.secondary) =
      [q0, q1])
    (hr : r.from_ = r.to_) (hle : r.from_ ≤ st.doc.length) :
    (handleQuote qc st).1 = st.selection.map (quoteCursor st.doc q0 q1) ∧
    (r.from_ = 0 → quoteCursor st.doc q0 q1 r = (⟨q0.length, q0.length⟩, ⟨0, 0, q0⟩)) ∧
    (∀ ch, 0 < r.from_ → st.doc[r.from_ - 1]? = some ch →
      quoteCursor st.doc q0 q1 r =
        (⟨r.from_ + (if ch ∈ startChars then q0 else q1).length,
            r.from_ + (if ch ∈ startChars then q0 else q1).length⟩,
          ⟨r.from_, r.from_, if ch ∈ startChars then q0 else q1⟩)) := by
  obtain ⟨f, t⟩ := r
  simp only at hr
  subst hr
  refine ⟨?_, ?_, ?_⟩
  · unfold handleQuote
    by_cases hqc : qc = dquote <;> simp [hact, hqc] at hq ⊢ <;> rw [hq] <;> exact fun a _ => rfl
  · intro h0
    simp only at h0
    subst h0
    unfold quoteCursor
    rw [if_pos rfl]
    have hsl : sliceDoc st.doc (0 - 1) 0 = [] := rfl
    simp only [hsl]
    rw [if_pos List.nil_infix]
    simp
  · intro ch hpos hch
    unfold quoteCursor
    rw [if_pos rfl]
    simp only
    rw [sliceDoc_single st.doc f ch hpos hch]
    by_cases hmem : ch ∈ startChars
    · rw [if_pos ((singleton_isInfix_iff ch startChars).mpr hmem)]
      simp [hmem]
    · rw [if_neg (fun hc => hmem ((singleton_isInfix_iff ch startChars).mp hc))]
      simp [hmem]

/-- Claim C7 (witness): the theorem at a concrete state, covering the
start-glyph case after a space. -/
theorem claim_C7_witness :
    (handleQuote dquote ⟨[' '], [⟨1, 1⟩], cfgQuotes, noProt⟩).1 =
      [⟨1, 1⟩].map (quoteCursor [' '] ['“'] ['”']) ∧
    ((1 : Nat) = 0 → quoteCursor [' '] ['“'] ['”'] ⟨1, 1⟩ =
      (⟨List.length ['“'], List.length ['“']⟩, ⟨0, 0, ['“']⟩)) ∧
    (∀ ch, 0 < 1 → [' '][1 - 1]? = some ch →
      quoteCursor [' '] ['“'] ['”'] ⟨1, 1⟩ =
        (⟨1 + (if ch ∈ startChars then ['“'] else ['”']).length,
            1 + (if ch ∈ startChars then ['“'] else ['”']).length⟩,
          ⟨1, 1, if ch ∈ startChars then ['“'] else ['”']⟩)) :=
  claim_C7_quote_context ⟨[' '], [⟨1, 1⟩], cfgQuotes, noProt⟩ dquote ['“'] ['”'] ⟨1, 1⟩
    (by decide) (by decide) (by decide) (by decide)

/-! ## Backspace-handler claims -/

theorem handleBackspace_active (st : EditorState) (hact : st.config.active = true) :
    handleBackspace st =
      (st.selection.filterMap (backspaceCursor st.doc
          (splitOnSep ellipsis st.config.magicQuotes.primary)
          (splitOnSep ellipsis st.config.magicQuotes.secondary)),
        !(st.selection.filterMap (backspaceCursor st.doc
          (splitOnSep ellipsis st.config.magicQuotes.primary)
          (splitOnSep ellipsis st.config.magicQuotes.secondary))).isEmpty) := by
  unfold handleBackspace
  rw [if_neg (by simp [hact])]

theorem backspaceCursor_isSome_iff {doc : List Char} {pq sq : List (List Char)} {r : SelRange}
    (hle : r.from_ ≤ doc.length) :
    backspaceCursor doc pq sq r ≠ none ↔
      r.from_ ≠ 0 ∧ ∃ ch, doc[r.from_ - 1]? = some ch ∧
        (([ch] ∈ pq ∧ [ch] ≠ [dquote]) ∨ ([ch] ∈ sq ∧ [ch] ≠ [squote])) := by
  constructor
  · intro h
    by_cases h0 : r.from_ = 0
    · exact absurd (by unfold backspaceCursor; rw [if_pos h0]) h
    refine ⟨h0, ?_⟩
    have hlt : r.from_ - 1 < doc.length := by omega
    have hch : doc[r.from_ - 1]? = some doc[r.from_ - 1] := List.getElem?_eq_getElem hlt
    refine ⟨_, hch, ?_⟩
    have hsl := sliceDoc_single doc r.from_ _ (by omega) hch
    unfold backspaceCursor at h
    rw [if_neg h0, hsl] at h
    by_cases h1 : [doc[r.from_ - 1]] ∈ pq ∧ [doc[r.from_ - 1]] ≠ [dquote]
    · exact Or.inl h1
    · rw [if_neg h1] at h
      by_cases h2 : [doc[r.from_ - 1]] ∈ sq ∧ [doc[r.from_ - 1]] ≠ [squote]
      · exact Or.inr h2
      · rw [if_neg h2] at h
        exact absurd rfl h
  · rintro ⟨h0, ch, hch, hcond⟩
    have hsl := sliceDoc_single doc r.from_ ch (by omega) hch
    unfold backspaceCursor
    rw [if_neg h0, hsl]
    rcases hcond with h1 | h1
    · rw [if_pos h1]
      simp
    · by_cases h2 : [ch] ∈ pq ∧ [ch] ≠ [dquote]
      · rw [if_pos h2]
        simp
      · rw [if_neg h2, if_pos h1]
        simp

/-- Fixture: one cursor right after a left double quotation mark. -/
def stBack : EditorState := ⟨['“'], [⟨1, 1⟩], cfgQuotes, noProt⟩

/-- Claim C8 (confirmed): with an active configuration, the backspace
handler reports handled exactly when some cursor is not at document
start and the single character before it is a glyph of the primary pair
other than the plain double-quote or a glyph of the secondary pair other
than the plain single-quote; the edit batch carries at most one edit per
cursor, and a handled cursor's edit replaces just that one character by
the matching plain quote (primary checked first). -/
theorem claim_C8_backspace_contract (st : EditorState) (pq sq : List (List Char))
    (hact : st.config.active = true)
    (hpq : pq = splitOnSep ellipsis st.config.magicQuotes.primary)
    (hsq : sq = splitOnSep ellipsis st.config.magicQuotes.secondary)
    (hsel : ∀ r ∈ st.selection, r.from_ ≤ st.doc.length) :
    ((handleBackspace st).2 = true ↔
      ∃ r ∈ st.selection, r.from_ ≠ 0 ∧ ∃ ch, st.doc[r.from_ - 1]? = some ch ∧
        (([ch] ∈ pq ∧ [ch] ≠ [dquote]) ∨ ([ch] ∈ sq ∧ [ch] ≠ [squote]))) ∧
    (handleBackspace st).1 = st.selection.filterMap (backspaceCursor st.doc pq sq) ∧
    (∀ r ∈ st.selection, ∀ ch, r.from_ ≠ 0 → st.doc[r.from_ - 1]? = some ch →
      backspaceCursor st.doc pq sq r =
        if [ch] ∈ pq ∧ [ch] ≠ [dquote] then some ⟨r.from_ - 1, r.from_, [dquote]⟩
        else if [ch] ∈ sq ∧ [ch] ≠ [squote] then some ⟨r.from_ - 1, r.from_, [squote]⟩
        else none) := by
  subst hpq
  subst hsq
  rw [handleBackspace_active st hact]
  refine ⟨?_, rfl, ?_⟩
  · constructor
    · intro h
      have hne : st.selection.filterMap (backspaceCursor st.doc
          (splitOnSep ellipsis st.config.magicQuotes.primary)
          (splitOnSep ellipsis st.config.magicQuotes.secondary)) ≠ [] := by
        intro hnil
        rw [hnil] at h
        simp at h
      rw [ne_eq, List.filterMap_eq_nil_iff] at hne
      push_neg at hne
      obtain ⟨r, hr, hfr⟩ := hne
      exact ⟨r, hr, (backspaceCursor_isSome_iff (hsel r hr)).mp hfr⟩
    · rintro ⟨r, hr, hcond⟩
      have hfr := (backspaceCursor_isSome_iff (hsel r hr)).mpr ⟨hcond.1, hcond.2⟩
      have hne : st.selection.filterMap (backspaceCursor st.doc
          (splitOnSep ellipsis st.config.magicQuotes.primary)
          (splitOnSep ellipsis st.config.magicQuotes.secondary)) ≠ [] := by
        rw [ne_eq, List.filterMap_eq_nil_iff]
        push_neg
        exact ⟨r, hr, hfr⟩
      have hemp : (st.selection.filterMap (backspaceCursor st.doc
          (splitOnSep ellipsis st.config.magicQuotes.primary)
          (splitOnSep ellipsis st.config.magicQuotes.secondary))).isEmpty = false := by
        cases hcase : (st.selection.filterMap (backspaceCursor st.doc
            (splitOnSep ellipsis st.config.magicQuotes.primary)
            (splitOnSep ellipsis st.config.magicQuotes.secondary))).isEmpty
        · rfl
        · exact absurd (List.isEmpty_iff.mp hcase) hne
      show (!(st.selection.filterMap (backspaceCursor st.doc
          (splitOnSep ellipsis st.config.magicQuotes.primary)
          (splitOnSep ellipsis st.config.magicQuotes.secondary))).isEmpty) = true
      rw [hemp]
      rfl
  · intro r hr ch h0 hch
    have hsl := sliceDoc_single st.doc r.from_ ch (by omega) hch
    unfold backspaceCursor
    rw [if_neg h0, hsl]

/-- Claim C8 (witness): the contract at a single cursor sitting right
after a primary start glyph. -/
theorem claim_C8_witness :
    ((handleBackspace stBack).2 = true ↔
      ∃ r ∈ stBack.selection, r.from_ ≠ 0 ∧ ∃ ch, stBack.doc[r.from_ - 1]? = some ch ∧
        (([ch] ∈ [['“'], ['”']] ∧ [ch] ≠ [dquote]) ∨
          ([ch] ∈ [['‘'], ['’']] ∧ [ch] ≠ [squote]))) ∧
    (handleBackspace stBack).1 =
      stBack.selection.filterMap (backspaceCursor stBack.doc [['“'], ['”']] [['‘'], ['’']]) ∧
    (∀ r ∈ stBack.selection, ∀ ch, r.from_ ≠ 0 → stBack.doc[r.from_ - 1]? = some ch →
      backspaceCursor stBack.doc [['“'], ['”']] [['‘'], ['’']] r =
        if [ch] ∈ [['“'], ['”']] ∧ [ch] ≠ [dquote] then
          some ⟨r.from_ - 1, r.from_, [dquote]⟩
        else if [ch] ∈ [['‘'], ['’']] ∧ [ch] ≠ [squote] then
          some ⟨r.from_ - 1, r.from_, [squote]⟩
        else none) :=
  claim_C8_backspace_contract stBack [['“'], ['”']] [['‘'], ['’']]
    (by decide) (by decide) (by decide) (by decide)

theorem applyEdit_single_getElem (doc : List Char) (c : Nat) (ch : Char)
    (hc : 1 ≤ c) (hcl : c ≤ doc.length) :
    (applyEdit doc ⟨c - 1, c, [ch]⟩)[c - 1]? = some ch := by
  show (doc.take (c - 1) ++ [ch] ++ doc.drop c)[c - 1]? = some ch
  have h1 : (doc.take (c - 1)).length = c - 1 := by
    rw [List.length_take, Nat.min_eq_left (by omega)]
  rw [List.getElem?_append, if_pos (by rw [List.length_append, h1]; simp)]
  rw [List.getElem?_append_right (le_of_eq h1), h1]
  simp

theorem applyEdit_single_length (doc : List Char) (c : Nat) (ch : Char)
    (hc : 1 ≤ c) (hcl : c ≤ doc.length) :
    (applyEdit doc ⟨c - 1, c, [ch]⟩).length = doc.length := by
  unfold applyEdit
  simp
  omega

theorem applyEdit_before_slice (doc : List Char) (f t : Nat) (ch : Char)
    (hf : 1 ≤ f) (hft : f ≤ t) (ht : t ≤ doc.length) :
    sliceDoc (applyEdit doc ⟨f - 1, f, [ch]⟩) f t = sliceDoc doc f t := by
  unfold applyEdit sliceDoc
  have hA : (doc.take (f - 1) ++ [ch]).length = f := by
    rw [List.length_append, List.length_take, Nat.min_eq_left (by omega)]
    simp
    omega
  rw [List.drop_take, List.drop_take]
  congr 1
  exact List.drop_left' hA

/-- Claim C9 (confirmed): pressing backspace right after a directional
magic quote downgrades it to the matching plain quote and reports
handled; pressing backspace again on the resulting document — the plain
quote before the cursor not itself being a directional glyph distinct
from its plain form — reports not handled with an empty edit batch, so
the downgrade never toggles or repeats. -/
theorem claim_C9_backspace_idempotent (doc : List Char) (cfg : AutocorrectConfig)
    (isProt : Nat → Bool) (c : Nat) (g : Char)
    (hact : cfg.active = true)
    (hc : 1 ≤ c) (hcl : c ≤ doc.length) (hg : doc[c - 1]? = some g)
    (hcase :
      ([g] ∈ splitOnSep ellipsis cfg.magicQuotes.primary ∧ [g] ≠ [dquote] ∧
        [dquote] ∉ splitOnSep ellipsis cfg.magicQuotes.secondary) ∨
      (¬([g] ∈ splitOnSep ellipsis cfg.magicQuotes.primary ∧ [g] ≠ [dquote]) ∧
        [g] ∈ splitOnSep ellipsis cfg.magicQuotes.secondary ∧ [g] ≠ [squote] ∧
        [squote] ∉ splitOnSep ellipsis cfg.magicQuotes.primary)) :
    ∃ plain : Char,
      handleBackspace ⟨doc, [⟨c, c⟩], cfg, isProt⟩ = ([⟨c - 1, c, [plain]⟩], true) ∧
      handleBackspace ⟨applyEdit doc ⟨c - 1, c, [plain]⟩, [⟨c, c⟩], cfg, isProt⟩ =
        ([], false) := by
  have hsl := sliceDoc_single doc c g hc hg
  rcases hcase with ⟨h1, h2, h3⟩ | ⟨h0, h1, h2, h3⟩
  · refine ⟨dquote, ?_, ?_⟩
    · rw [handleBackspace_active _ hact]
      have hbc : backspaceCursor doc (splitOnSep ellipsis cfg.magicQuotes.primary)
          (splitOnSep ellipsis cfg.magicQuotes.secondary) ⟨c, c⟩ =
          some ⟨c - 1, c, [dquote]⟩ := by
        unfold backspaceCursor
        rw [if_neg (by simp; omega), hsl, if_pos ⟨h1, h2⟩]
      simp [List.filterMap_cons, hbc]
    · rw [handleBackspace_active _ hact]
      have hg2 := applyEdit_single_getElem doc c dquote hc hcl
      have hsl2 := sliceDoc_single (applyEdit doc ⟨c - 1, c, [dquote]⟩) c dquote hc hg2
      have hbc2 : backspaceCursor (applyEdit doc ⟨c - 1, c, [dquote]⟩)
          (splitOnSep ellipsis cfg.magicQuotes.primary)
          (splitOnSep ellipsis cfg.magicQuotes.secondary) ⟨c, c⟩ = none := by
        unfold backspaceCursor
        rw [if_neg (by simp; omega), hsl2, if_neg (by simp), if_neg (by simp [h3])]
      simp [List.filterMap_cons, hbc2]
  · refine ⟨squote, ?_, ?_⟩
    · rw [handleBackspace_active _ hact]
      have hbc : backspaceCursor doc (splitOnSep ellipsis cfg.magicQuotes.primary)
          (splitOnSep ellipsis cfg.magicQuotes.secondary) ⟨c, c⟩ =
          some ⟨c - 1, c, [squote]⟩ := by
        unfold backspaceCursor
        rw [if_neg (by simp; omega), hsl, if_neg h0, if_pos ⟨h1, h2⟩]
      simp [List.filterMap_cons, hbc]
    · rw [handleBackspace_active _ hact]
      have hg2 := applyEdit_single_getElem doc c squote hc hcl
      have hsl2 := sliceDoc_single (applyEdit doc ⟨c - 1, c, [squote]⟩) c squote hc hg2
      have hbc2 : backspaceCursor (applyEdit doc ⟨c - 1, c, [squote]⟩)
          (splitOnSep ellipsis cfg.magicQuotes.primary)
          (splitOnSep ellipsis cfg.magicQuotes.secondary) ⟨c, c⟩ = none := by
        unfold backspaceCursor
        rw [if_neg (by simp; omega), hsl2, if_neg (by simp [h3]), if_neg (by simp)]
      simp [List.filterMap_cons, hbc2]

/-- Claim C9 (witness): backspace twice after a left double quotation
mark, with the curly-quote configuration. -/
theorem claim_C9_witness :
    ∃ plain : Char,
      handleBackspace ⟨['“'], [⟨1, 1⟩], cfgQuotes, noProt⟩ = ([⟨0, 1, [plain]⟩], true) ∧
      handleBackspace ⟨applyEdit ['“'] ⟨0, 1, [plain]⟩, [⟨1, 1⟩], cfgQuotes, noProt⟩ =
        ([], false) :=
  claim_C9_backspace_idempotent ['“'] cfgQuotes noProt 1 '“'
    (by decide) (by decide) (by decide) (by decide) (by decide)

/-- Claim C10 (confirmed): the backspace handler treats a non-empty
selection exactly like an empty cursor at its `from` end: if that end is
not at document start and the character before it is a directional
glyph, the handler replaces that character with the matching plain
quote, reports handled (suppressing the host default deletion), and the
selected text itself is untouched by the emitted edit. -/
theorem claim_C10_selection_backspace (doc : List Char) (cfg : AutocorrectConfig)
    (isProt : Nat → Bool) (f t : Nat) (g : Char)
    (hact : cfg.active = true)
    (hf : 1 ≤ f) (hft : f < t) (ht : t ≤ doc.length)
    (hg : doc[f - 1]? = some g)
    (hcase :
      ([g] ∈ splitOnSep ellipsis cfg.magicQuotes.primary ∧ [g] ≠ [dquote]) ∨
      (¬([g] ∈ splitOnSep ellipsis cfg.magicQuotes.primary ∧ [g] ≠ [dquote]) ∧
        [g] ∈ splitOnSep ellipsis cfg.magicQuotes.secondary ∧ [g] ≠ [squote])) :
    ∃ plain : Char,
      handleBackspace ⟨doc, [⟨f, t⟩], cfg, isProt⟩ = ([⟨f - 1, f, [plain]⟩], true) ∧
      handleBackspace ⟨doc, [⟨f, t⟩], cfg, isProt⟩ =
        handleBackspace ⟨doc, [⟨f, f⟩], cfg, isProt⟩ ∧
      sliceDoc (applyEdit doc ⟨f - 1, f, [plain]⟩) f t = sliceDoc doc f t := by
  have hsl := sliceDoc_single doc f g hf hg
  have hsame : handleBackspace ⟨doc, [⟨f, t⟩], cfg, isProt⟩ =
      handleBackspace ⟨doc, [⟨f, f⟩], cfg, isProt⟩ := rfl
  rcases hcase with ⟨h1, h2⟩ | ⟨h0, h1, h2⟩
  · refine ⟨dquote, ?_, hsame, applyEdit_before_slice doc f t dquote hf (by omega) ht⟩
    rw [handleBackspace_active _ hact]
    have hbc : backspaceCursor doc (splitOnSep ellipsis cfg.magicQuotes.primary)
        (splitOnSep ellipsis cfg.magicQuotes.secondary) ⟨f, t⟩ =
        some ⟨f - 1, f, [dquote]⟩ := by
      unfold backspaceCursor
      rw [if_neg (by simp; omega), hsl, if_pos ⟨h1, h2⟩]
    simp [List.filterMap_cons, hbc]
  · refine ⟨squote, ?_, hsame, applyEdit_before_slice doc f t squote hf (by omega) ht⟩
    rw [handleBackspace_active _ hact]
    have hbc : backspaceCursor doc (splitOnSep ellipsis cfg.magicQuotes.primary)
        (splitOnSep ellipsis cfg.magicQuotes.secondary) ⟨f, t⟩ =
        some ⟨f - 1, f, [squote]⟩ := by
      unfold backspaceCursor
      rw [if_neg (by simp; omega), hsl, if_neg h0, if_pos ⟨h1, h2⟩]
    simp [List.filterMap_cons, hbc]

/-- Claim C10 (witness): a selection [1,3) of "“xy" whose from-end sits
right after a left double quotation mark. -/
theorem claim_C10_witness :
    ∃ plain : Char,
      handleBackspace ⟨['“', 'x', 'y'], [⟨1, 3⟩], cfgQuotes, noProt⟩ =
        ([⟨0, 1, [plain]⟩], true) ∧
      handleBackspace ⟨['“', 'x', 'y'], [⟨1, 3⟩], cfgQuotes, noProt⟩ =
        handleBackspace ⟨['“', 'x', 'y'], [⟨1, 1⟩], cfgQuotes, noProt⟩ ∧
      sliceDoc (applyEdit ['“', 'x', 'y'] ⟨0, 1, [plain]⟩) 1 3 =
        sliceDoc ['“', 'x', 'y'] 1 3 :=
  claim_C10_selection_backspace ['“', 'x', 'y'] cfgQuotes noProt 1 3 '“'
    (by decide) (by decide) (by decide) (by decide) (by decide) (by decide)

end Autocorrect
